import Mathlib

/-!
Verification development for the chunked parallel transcription and revision
pipeline (`src/app.py`).  The Python source is shallowly embedded below:
strings are modelled as `List Char`, Python exceptions as `Option`/`Except`
values, the float arithmetic of `shift_timestamp` in exact integer arithmetic
over milliseconds (all quantities handled by the program are integer numbers of
milliseconds, for which the double computations of the source are exact and
`int(round (...))` recovers the exact value), and the external collaborators
(Whisper transcription, the GPT revision call, and the filesystem delete) as
oracle functions supplied through a `Collab` structure.
-/

/-- Strings of the source program are modelled as lists of characters. -/
abbrev Str := List Char

/-- Python whitespace test used by `str.strip()` / `int()` (ASCII subset). -/
def isWsPy (c : Char) : Bool :=
  c = ' ' ∨ c = '\t' ∨ c = '\n' ∨ c = '\r' ∨ c = '\x0b' ∨ c = '\x0c'

/-- Model of Python `str.strip()`: remove whitespace from both ends. -/
def strip (l : Str) : Str :=
  ((l.dropWhile isWsPy).reverse.dropWhile isWsPy).reverse

/-- Value of a list of ASCII digit characters, most significant first
(the accumulator loop of integer parsing). -/
def digitsVal (l : Str) : Nat :=
  l.foldl (fun a c => 10 * a + (c.toNat - 48)) 0

/-- The decimal digit character for a single digit. -/
def digitChar (d : Nat) : Char :=
  if d = 0 then '0' else if d = 1 then '1' else if d = 2 then '2'
  else if d = 3 then '3' else if d = 4 then '4' else if d = 5 then '5'
  else if d = 6 then '6' else if d = 7 then '7' else if d = 8 then '8' else '9'

/-- Decimal digit expansion of a natural number (helper with explicit fuel so
that the definition is structurally recursive and kernel-reducible). -/
def natDigitsGo : Nat → Nat → Str
  | 0, _ => []
  | fuel + 1, n =>
    if n < 10 then [digitChar n] else natDigitsGo fuel (n / 10) ++ [digitChar (n % 10)]

/-- Decimal digit expansion of a natural number, most significant first. -/
def natDigits (n : Nat) : Str := natDigitsGo (n + 1) n

/-- Model of the Python format specifier `{:0wd}` on an integer: the sign
followed by the decimal digits, zero-padded on the left to total width `w`
(the sign counts towards the width, exactly as in Python). -/
def zpad (w : Nat) (n : Int) : Str :=
  if n < 0 then
    '-' :: (List.replicate (w - 1 - (natDigits n.natAbs).length) '0' ++ natDigits n.natAbs)
  else
    List.replicate (w - (natDigits n.natAbs).length) '0' ++ natDigits n.natAbs

/-- The digits part (after sign/whitespace handling) of Python `int(...)`:
a nonempty all-digit string, or failure. -/
def natPartVal (l : Str) : Option Nat :=
  if l ≠ [] ∧ l.all Char.isDigit then some (digitsVal l) else none

/-- Model of Python `int(s)` on ASCII input: strip whitespace, allow one
optional sign, then require a nonempty run of decimal digits.
(Underscore separators and non-ASCII decimals accepted by CPython do not occur
in this pipeline and are not modelled.) -/
def pyInt (l : Str) : Option Int :=
  match strip l with
  | [] => none
  | c :: r =>
    if c = '+' then (natPartVal r).map (fun n => (n : Int))
    else if c = '-' then (natPartVal r).map (fun n => -(n : Int))
    else (natPartVal (c :: r)).map (fun n => (n : Int))

/-- Helper for Python `str.split(sep)` with a single-character separator:
returns the first field and the remaining fields. -/
def splitOnCharAux (c : Char) : Str → Str × List Str
  | [] => ([], [])
  | d :: rest =>
    let p := splitOnCharAux c rest
    if d = c then ([], p.1 :: p.2) else (d :: p.1, p.2)

/-- Model of Python `str.split(sep)` for a single-character separator. -/
def splitOnChar (c : Char) (l : Str) : List Str :=
  ((splitOnCharAux c l).1) :: (splitOnCharAux c l).2

/-- Helper for Python `str.split('-->')`: scans left to right, splitting at
each non-overlapping occurrence of the three-character separator. -/
def splitArrowAux : Str → Str × List Str
  | [] => ([], [])
  | [c] => ([c], [])
  | [c, d] => ([c, d], [])
  | c :: d :: e :: rest =>
    if c = '-' ∧ d = '-' ∧ e = '>' then
      let p := splitArrowAux rest
      ([], p.1 :: p.2)
    else
      let p := splitArrowAux (d :: e :: rest)
      (c :: p.1, p.2)

/-- Model of Python `line.split('-->')`. -/
def splitArrow (l : Str) : List Str :=
  ((splitArrowAux l).1) :: (splitArrowAux l).2

/-- Model of Python `str.splitlines()` for LF-separated text (the blocks this
pipeline builds and re-reads are joined with `"\n"`; the additional Unicode
line boundaries recognised by CPython do not occur here). -/
def splitlines (t : Str) : List Str :=
  if t = [] then []
  else if t.getLast? = some '\n' then (splitOnChar '\n' t).dropLast
  else splitOnChar '\n' t

/-- Truncation toward zero of `x / d` for `d > 0`: the behaviour of Python
`int(...)` applied to the quotient. -/
def intTrunc (x d : Int) : Int :=
  if x < 0 then -((-x).ediv d) else x.ediv d

/-!
Timestamp codec (`shift_timestamp`, source lines 55-67).  A parsed timestamp
is its total number of milliseconds: the source computes
`total_seconds = h*3600 + m*60 + s + ms/1000` as a float and we carry the
exact value `total_ms = h*3600000 + m*60000 + s*1000 + ms`.
-/

/-- Parse of the timestamp string inside `shift_timestamp`: split on `':'`
into exactly three fields (Python tuple unpacking raises otherwise), split the
last on `','` into exactly two, convert all four with `int(...)`.  Returns the
total number of milliseconds. -/
def parse_timecode (ts : Str) : Option Int :=
  match splitOnChar ':' ts with
  | [hh, mm, sms] =>
    match splitOnChar ',' sms with
    | [ss, ms] =>
      match pyInt hh, pyInt mm, pyInt ss, pyInt ms with
      | some hv, some mv, some sv, some msv =>
        some (hv * 3600000 + mv * 60000 + sv * 1000 + msv)
      | _, _, _, _ => none
    | _ => none
  | _ => none

/-- Formatting of the shifted total inside `shift_timestamp`
(source lines 63-67), on the exact millisecond value:
`new_h = int(new_total // 3600)`, `new_m = int((new_total % 3600) // 60)`,
`new_s = int(new_total % 60)` and
`new_ms = int(round((new_total - int(new_total)) * 1000))`, rendered with the
format string `f"[new_h:02]:[new_m:02]:[new_s:02],[new_ms:03]"`. -/
def format_timecode (x : Int) : Str :=
  zpad 2 (x.ediv 3600000) ++ ':' ::
    (zpad 2 ((x.emod 3600000).ediv 60000) ++ ':' ::
      (zpad 2 ((x.emod 60000).ediv 1000) ++ ',' ::
        zpad 3 (x - 1000 * intTrunc x 1000)))

/-- Model of `shift_timestamp(ts, offset)`: parse, add `offset` seconds,
reformat.  A malformed timestamp raises in the source; here it yields `none`. -/
def shift_timestamp (ts : Str) (offset : Int) : Option Str :=
  match parse_timecode ts with
  | none => none
  | some total => some (format_timecode (total + 1000 * offset))

/-- One iteration of the loop of `adjust_srt` (source lines 75-84): a line
containing `-->` is split, both sides stripped and shifted, and reassembled
with a single space around the arrow; any other line passes through unchanged.
(`line.split('-->')` has at least two fields exactly when `'-->' in line`.) -/
def shiftLine (line : Str) (off : Int) : Option Str :=
  match splitArrow line with
  | p0 :: p1 :: _ =>
    match shift_timestamp (strip p0) off, shift_timestamp (strip p1) off with
    | some ns, some ne => some (ns ++ ' ' :: '-' :: '-' :: '>' :: ' ' :: ne)
    | _, _ => none
  | _ => some line

/-- The accumulation loop of `adjust_srt` over the list of lines; an exception
raised while shifting any line propagates (models the uncaught `ValueError`). -/
def shiftLines (ls : List Str) (off : Int) : Option (List Str) :=
  match ls with
  | [] => some []
  | l :: rest =>
    match shiftLine l off, shiftLines rest off with
    | some l', some rest' => some (l' :: rest')
    | _, _ => none

/-- Model of `adjust_srt(srt_text, offset)` (source lines 69-85):
split into lines, shift each line, join with `"\n"`. -/
def adjust_srt (t : Str) (off : Int) : Option Str :=
  (shiftLines (splitlines t) off).map (List.intercalate ['\n'])

/-- Decidable well-formedness of one line, used by the amended shift claims:
if the line contains `-->`, both sides must parse as timecodes with
nonnegative totals (the shape of every well-formed SRT time-range line). -/
def lineOK (l : Str) : Bool :=
  match splitArrow l with
  | p0 :: p1 :: _ =>
    match parse_timecode (strip p0), parse_timecode (strip p1) with
    | some x, some y => decide (0 ≤ x) && decide (0 ≤ y)
    | _, _ => false
  | _ => true

/-!
Pipeline (`process_chunk`, `process_audio`, `split_audio`, and the merge loop
of the presentation layer).  The external collaborators are oracles.
-/

/-- Global constant for chunk length in seconds (source line 10).
`process_audio` calls `split_audio` with the default `chunk_length=200`, so the
global is 200 throughout a job of the wired pipeline. -/
def CHUNK_LENGTH : Nat := 200

/-- The external collaborators of one chunk's unit of work: the transcription
service (`transcribe_audio`), the revision service (`process_text_with_gpt`)
and the filesystem delete (`os.remove`).  An `Except.error` value models the
collaborator raising an exception. -/
structure Collab where
  transcribe : String → Except String Str
  gptProcess : Str → Except String Str
  removeFile : String → Except String Unit

/-- Observable calls made while processing, used to state which collaborator
invocations were attempted and with which arguments. -/
inductive Event where
  | transcribeEv : String → Event
  | reviseEv : Str → Event
  | adjustEv : Int → Event
  | removeEv : String → Event
deriving DecidableEq

/-- Model of `process_chunk(chunk_info)` (source lines 193-216), paired with
the trace of calls it attempted.  The `try` block runs transcription, revision,
timestamp adjustment with offset `index * CHUNK_LENGTH`, then deletes the chunk
file and returns `(index, adjusted)`; any exception is caught by the
`except Exception` handler, which returns `(index, "")`. -/
def process_chunk_ev (env : Collab) (chunk_info : Nat × String) : (Nat × Str) × List Event :=
  let index := chunk_info.1
  let chunk := chunk_info.2
  match env.transcribe chunk with
  | Except.error _ => ((index, []), [Event.transcribeEv chunk])
  | Except.ok transcribed_text =>
    match env.gptProcess transcribed_text with
    | Except.error _ =>
      ((index, []), [Event.transcribeEv chunk, Event.reviseEv transcribed_text])
    | Except.ok processed_text =>
      match adjust_srt processed_text ((index * CHUNK_LENGTH : Nat) : Int) with
      | none =>
        ((index, []),
          [Event.transcribeEv chunk, Event.reviseEv transcribed_text,
            Event.adjustEv ((index * CHUNK_LENGTH : Nat) : Int)])
      | some adjusted =>
        match env.removeFile chunk with
        | Except.error _ =>
          ((index, []),
            [Event.transcribeEv chunk, Event.reviseEv transcribed_text,
              Event.adjustEv ((index * CHUNK_LENGTH : Nat) : Int), Event.removeEv chunk])
        | Except.ok _ =>
          ((index, adjusted),
            [Event.transcribeEv chunk, Event.reviseEv transcribed_text,
              Event.adjustEv ((index * CHUNK_LENGTH : Nat) : Int), Event.removeEv chunk])

/-- The value `process_chunk` returns (always a pair, never an exception). -/
def process_chunk (env : Collab) (chunk_info : Nat × String) : Nat × Str :=
  (process_chunk_ev env chunk_info).1

/-- The chunk file name `f"[base]_chunk_[index:03d].mp3"` probed and produced
by `split_audio`. -/
def chunk_file_name (base : String) (i : Nat) : String :=
  base ++ "_chunk_" ++ String.mk (zpad 3 (i : Int)) ++ ".mp3"

/-- Model of the probe loop of `split_audio` (source lines 44-53).  The
filesystem is the finite list `fs` of chunk indices whose files exist; the
while loop walks index 0, 1, 2, ... and stops at the first missing index.
Scanning `fs.length + 1` candidate indices always reaches a missing index, so
the bounded scan coincides with the unbounded loop (`split_audio_probe_spec`
below).  The physical `ffmpeg` segmentation is the external utility that
produced `fs` and is not part of the core. -/
def split_audio (fs : List Nat) (base : String) : List (Nat × String) :=
  ((List.range (fs.length + 1)).takeWhile (fun i => fs.contains i)).map
    (fun i => (i, chunk_file_name base i))

/-- The worker pool size `max_workers = min(8, len(chunks))` (source line 221). -/
def max_workers (chunks : List (Nat × String)) : Nat :=
  min 8 chunks.length

/-- Stable sort of collected results by chunk index: the model of
`all_processed_text.sort(key=lambda x: x[0])` (source line 232). -/
def sortByIndex (l : List (Nat × Str)) : List (Nat × Str) :=
  List.insertionSort (fun a b => a.1 ≤ b.1) l

/-- The fan-in of `process_audio` (source lines 222-234) over an arbitrary
completion order: `as_completed` yields the chunk tasks in some permutation
`order` of the dispatched chunks; every future's result is collected, the list
is sorted by chunk index, and the payloads are returned in that order. -/
def process_audio_out (env : Collab) (order : List (Nat × String)) : List Str :=
  (sortByIndex (order.map (process_chunk env))).map Prod.snd

/-- Job-fatal pipeline errors. -/
inductive PipeErr where
  | poolSizeZero : PipeErr
deriving DecidableEq

/-- Model of `process_audio(file_path)` (source lines 218-234) with its call
trace.  `split_audio` plans the chunk list from the filesystem `fs`; with zero
chunks, `ThreadPoolExecutor(max_workers=0)` raises `ValueError` before any
collaborator is invoked (this job-fatal failure on an empty plan is what the
specification's error taxonomy names `SegmentationIncomplete`); otherwise the
chunk tasks run in completion order `order` and the sorted payloads are
returned. -/
def process_audio_ev (env : Collab) (fs : List Nat) (base : String)
    (order : List (Nat × String)) : Except PipeErr (List Str) × List Event :=
  let chunks := split_audio fs base
  if max_workers chunks = 0 then (Except.error PipeErr.poolSizeZero, [])
  else
    let evaluated := order.map (process_chunk_ev env)
    (Except.ok ((sortByIndex (evaluated.map Prod.fst)).map Prod.snd),
      (evaluated.map Prod.snd).flatten)

/-- The merge loop of the presentation layer (source lines 254-257):
`srt_content += text + "\n\n"` for each processed chunk payload in order. -/
def srt_content (texts : List Str) : Str :=
  texts.foldl (fun acc text => acc ++ (text ++ ['\n', '\n'])) []

/-- Modelled from the spec: the Assembler merge as the specification words it,
payloads concatenated in order with one blank-line separator between
consecutive payloads (`r0.payload + separator + r1.payload + ...`), used to
compare the specified merge against the implemented `srt_content`. -/
def merge_spec (texts : List Str) : Str :=
  List.intercalate ['\n', '\n'] texts

/-!
Supporting lemmas: decimal digits and integer parsing/formatting.
-/

theorem digitChar_toNat (d : Nat) (hd : d < 10) : (digitChar d).toNat = 48 + d := by
  interval_cases d <;> rfl

theorem digitChar_isDigit (d : Nat) (hd : d < 10) : (digitChar d).isDigit = true := by
  interval_cases d <;> decide

theorem natDigitsGo_eq_of_lt (n : Nat) : ∀ f f', n < f → n < f' →
    natDigitsGo f n = natDigitsGo f' n := by
  induction n using Nat.strong_induction_on with
  | _ n ih =>
    intro f f' hf hf'
    match f, f' with
    | g + 1, g' + 1 =>
      rw [natDigitsGo, natDigitsGo]
      by_cases h10 : n < 10
      · simp [h10]
      · simp only [h10, if_false]
        have hlt : n / 10 < n := Nat.div_lt_self (by omega) (by omega)
        rw [ih (n / 10) hlt g g' (by omega) (by omega)]

theorem natDigits_eq (n : Nat) :
    natDigits n = if n < 10 then [digitChar n] else natDigits (n / 10) ++ [digitChar (n % 10)] := by
  have hu : natDigits n = natDigitsGo (n + 1) n := rfl
  rw [hu, natDigitsGo]
  by_cases h10 : n < 10
  · simp [h10]
  · have hlt : n / 10 < n := Nat.div_lt_self (by omega) (by omega)
    simp only [h10, if_false]
    rw [natDigitsGo_eq_of_lt (n / 10) n (n / 10 + 1) (by omega) (by omega)]
    rfl

theorem natDigits_ne_nil (n : Nat) : natDigits n ≠ [] := by
  rw [natDigits_eq]
  by_cases h10 : n < 10 <;> simp [h10]

theorem natDigits_all_digit (n : Nat) : ∀ c ∈ natDigits n, c.isDigit = true := by
  induction n using Nat.strong_induction_on with
  | _ n ih =>
    intro c hc
    rw [natDigits_eq] at hc
    by_cases h10 : n < 10
    · simp [h10] at hc
      subst hc
      exact digitChar_isDigit n h10
    · simp [h10] at hc
      rcases hc with hc | hc
      · exact ih (n / 10) (Nat.div_lt_self (by omega) (by omega)) c hc
      · subst hc
        exact digitChar_isDigit (n % 10) (Nat.mod_lt n (by omega))

theorem digitsVal_append_singleton (l : Str) (c : Char) :
    digitsVal (l ++ [c]) = 10 * digitsVal l + (c.toNat - 48) := by
  simp [digitsVal, List.foldl_append]

theorem digitsVal_natDigits (n : Nat) : digitsVal (natDigits n) = n := by
  induction n using Nat.strong_induction_on with
  | _ n ih =>
    rw [natDigits_eq]
    by_cases h10 : n < 10
    · simp [h10, digitsVal, digitChar_toNat n h10]
    · simp only [h10, if_false, digitsVal_append_singleton]
      rw [ih (n / 10) (Nat.div_lt_self (by omega) (by omega)),
        digitChar_toNat (n % 10) (Nat.mod_lt n (by omega))]
      omega

theorem digitsVal_replicate_zero (k : Nat) (l : Str) :
    digitsVal (List.replicate k '0' ++ l) = digitsVal l := by
  induction k with
  | zero => simp
  | succ k ihk =>
    have : List.replicate (k + 1) '0' ++ l = '0' :: (List.replicate k '0' ++ l) := by
      simp [List.replicate_succ]
    rw [this]
    simpa [digitsVal] using ihk

theorem isDigit_val_bounds (c : Char) (h : c.isDigit = true) :
    48 ≤ c.toNat ∧ c.toNat ≤ 57 := by
  simp [Char.isDigit] at h
  rcases h with ⟨h1, h2⟩
  constructor
  · exact h1
  · exact h2

theorem ws_not_digit (c : Char) (h : isWsPy c = true) : c.isDigit = false := by
  simp only [isWsPy, decide_eq_true_eq] at h
  rcases h with h | h | h | h | h | h <;> (subst h; decide)

theorem isDigit_not_ws (c : Char) (h : c.isDigit = true) : isWsPy c = false := by
  cases hw : isWsPy c
  · rfl
  · rw [ws_not_digit c hw] at h
    exact absurd h (by simp)

theorem isDigit_ne (c x : Char) (h : c.isDigit = true) (hx : x.isDigit = false) : c ≠ x := by
  intro he
  subst he
  rw [h] at hx
  exact absurd hx (by simp)

/-!
Supporting lemmas: `strip`, `zpad`/`pyInt` and splitting.
-/

theorem dropWhile_eq_self_of_all {p : Char → Bool} {l : Str}
    (h : ∀ c ∈ l, p c = false) : l.dropWhile p = l := by
  cases l with
  | nil => rfl
  | cons c r =>
    rw [List.dropWhile_cons, h c (by simp)]
    simp

theorem strip_eq_self {l : Str} (h : ∀ c ∈ l, isWsPy c = false) : strip l = l := by
  unfold strip
  rw [dropWhile_eq_self_of_all h, dropWhile_eq_self_of_all (by intro c hc; exact h c (by simpa using hc))]
  simp

theorem strip_append_space {l : Str} (h : ∀ c ∈ l, isWsPy c = false) :
    strip (l ++ [' ']) = l := by
  cases l with
  | nil => rfl
  | cons c r =>
    unfold strip
    rw [List.cons_append, List.dropWhile_cons, h c (by simp)]
    simp only [Bool.false_eq_true, if_false]
    have h1 : (c :: (r ++ [' '])).reverse = ' ' :: (c :: r).reverse := by simp
    rw [h1, List.dropWhile_cons]
    have hsp : isWsPy ' ' = true := by decide
    rw [hsp]
    simp only [if_true]
    rw [dropWhile_eq_self_of_all
      (by intro x hx; exact h x (by rw [List.mem_reverse] at hx; exact hx))]
    simp

theorem strip_cons_space {l : Str} (h : ∀ c ∈ l, isWsPy c = false) :
    strip (' ' :: l) = l := by
  unfold strip
  rw [List.dropWhile_cons]
  have hsp : isWsPy ' ' = true := by decide
  rw [hsp]
  simp only [if_true]
  rw [dropWhile_eq_self_of_all h,
    dropWhile_eq_self_of_all (by intro x hx; exact h x (by simpa using hx))]
  simp

theorem zpad_cast (w n : Nat) :
    zpad w ((n : Nat) : Int) = List.replicate (w - (natDigits n).length) '0' ++ natDigits n := by
  have hnn : ¬ (((n : Nat) : Int) < 0) := Int.not_lt.mpr (Int.ofNat_nonneg n)
  simp [zpad, hnn, Int.natAbs_ofNat]

theorem zpad_cast_all_digit (w n : Nat) : ∀ c ∈ zpad w ((n : Nat) : Int), c.isDigit = true := by
  rw [zpad_cast]
  intro c hc
  rw [List.mem_append] at hc
  rcases hc with hc | hc
  · rw [List.eq_of_mem_replicate hc]
    decide
  · exact natDigits_all_digit n c hc

theorem zpad_cast_ne_nil (w n : Nat) : zpad w ((n : Nat) : Int) ≠ [] := by
  rw [zpad_cast]
  intro h
  rcases List.append_eq_nil.mp h with ⟨_, h2⟩
  exact natDigits_ne_nil n h2

theorem pyInt_digits (l : Str) (hne : l ≠ []) (hd : ∀ c ∈ l, c.isDigit = true) :
    pyInt l = some ((digitsVal l : Nat) : Int) := by
  have hs : strip l = l := strip_eq_self (fun c hc => isDigit_not_ws c (hd c hc))
  unfold pyInt
  rw [hs]
  cases l with
  | nil => exact absurd rfl hne
  | cons c r =>
    have hc : c.isDigit = true := hd c (by simp)
    have hplus : c ≠ '+' := isDigit_ne c '+' hc (by decide)
    have hminus : c ≠ '-' := isDigit_ne c '-' hc (by decide)
    simp only [hplus, hminus, if_false]
    unfold natPartVal
    rw [if_pos ⟨by simp, List.all_eq_true.mpr hd⟩]
    rfl

theorem pyInt_zpad (w n : Nat) : pyInt (zpad w ((n : Nat) : Int)) = some ((n : Nat) : Int) := by
  rw [pyInt_digits _ (zpad_cast_ne_nil w n) (zpad_cast_all_digit w n), zpad_cast,
    digitsVal_replicate_zero, digitsVal_natDigits]

theorem splitOnCharAux_of_not_mem {c : Char} {l : Str} (h : c ∉ l) :
    splitOnCharAux c l = (l, []) := by
  induction l with
  | nil => rfl
  | cons d r ih =>
    have hdc : d ≠ c := by intro he; exact h (by simp [he])
    simp only [splitOnCharAux, ih (by intro hm; exact h (by simp [hm])), hdc, if_false]

theorem splitOnChar_of_not_mem {c : Char} {l : Str} (h : c ∉ l) :
    splitOnChar c l = [l] := by
  simp [splitOnChar, splitOnCharAux_of_not_mem h]

theorem splitOnCharAux_append {c : Char} {a : Str} (b : Str) (h : c ∉ a) :
    splitOnCharAux c (a ++ c :: b) = (a, (splitOnCharAux c b).1 :: (splitOnCharAux c b).2) := by
  induction a with
  | nil => simp [splitOnCharAux]
  | cons d r ih =>
    have hdc : d ≠ c := by intro he; exact h (by simp [he])
    have hr : c ∉ r := by intro hm; exact h (by simp [hm])
    rw [List.cons_append]
    simp only [splitOnCharAux]
    rw [ih hr]
    simp [hdc]

theorem splitOnChar_append {c : Char} {a : Str} (b : Str) (h : c ∉ a) :
    splitOnChar c (a ++ c :: b) = a :: splitOnChar c b := by
  simp [splitOnChar, splitOnCharAux_append b h]

theorem splitOnCharAux_not_mem (c : Char) (l : Str) :
    (∀ x ∈ (splitOnCharAux c l).1, x ≠ c) ∧
      ∀ p ∈ (splitOnCharAux c l).2, ∀ x ∈ p, x ≠ c := by
  induction l with
  | nil => simp [splitOnCharAux]
  | cons d r ih =>
    simp only [splitOnCharAux]
    by_cases hdc : d = c
    · simp only [hdc, if_true]
      refine ⟨by simp, ?_⟩
      intro p hp
      rcases (by simpa using hp) with hp | hp
      · subst hp; exact ih.1
      · exact ih.2 p hp
    · simp only [hdc, if_false]
      refine ⟨?_, ih.2⟩
      intro x hx
      rcases (by simpa using hx) with hx | hx
      · subst hx; exact hdc
      · exact ih.1 x hx

theorem splitOnChar_pieces_not_mem (c : Char) (l : Str) :
    ∀ p ∈ splitOnChar c l, c ∉ p := by
  intro p hp hcp
  rcases (by simpa [splitOnChar] using hp) with hp | hp
  · subst hp
    exact (splitOnCharAux_not_mem c l).1 c hcp rfl
  · exact (splitOnCharAux_not_mem c l).2 p hp c hcp rfl

/-!
Roundtrip: for a nonnegative total, `format_timecode` produces the canonical
`HH:MM:SS,mmm` rendering, which parses back to exactly the same total.
-/

theorem format_timecode_cast (n : Nat) :
    format_timecode ((n : Nat) : Int) =
      zpad 2 ((n / 3600000 : Nat) : Int) ++ ':' ::
        (zpad 2 ((n % 3600000 / 60000 : Nat) : Int) ++ ':' ::
          (zpad 2 ((n % 60000 / 1000 : Nat) : Int) ++ ',' ::
            zpad 3 ((n % 1000 : Nat) : Int))) := by
  unfold format_timecode
  have h4 : ((n : Nat) : Int) - 1000 * intTrunc ((n : Nat) : Int) 1000
      = ((n % 1000 : Nat) : Int) := by
    rw [intTrunc, if_neg (Int.not_lt.mpr (Int.ofNat_nonneg n))]
    have he : ((n : Nat) : Int).ediv 1000 = ((n / 1000 : Nat) : Int) := rfl
    rw [he]
    push_cast
    omega
  rw [h4]
  rfl

theorem not_mem_of_all_digit {l : Str} (h : ∀ c ∈ l, c.isDigit = true)
    {x : Char} (hx : x.isDigit = false) : x ∉ l := by
  intro hm
  rw [h x hm] at hx
  exact absurd hx (by simp)

theorem parse_format_cast (n : Nat) :
    parse_timecode (format_timecode ((n : Nat) : Int)) = some ((n : Nat) : Int) := by
  rw [format_timecode_cast]
  have hA := zpad_cast_all_digit 2 (n / 3600000)
  have hB := zpad_cast_all_digit 2 (n % 3600000 / 60000)
  have hC := zpad_cast_all_digit 2 (n % 60000 / 1000)
  have hD := zpad_cast_all_digit 3 (n % 1000)
  have hcA : ':' ∉ zpad 2 ((n / 3600000 : Nat) : Int) :=
    not_mem_of_all_digit hA (by decide)
  have hcB : ':' ∉ zpad 2 ((n % 3600000 / 60000 : Nat) : Int) :=
    not_mem_of_all_digit hB (by decide)
  have hcCD : ':' ∉ zpad 2 ((n % 60000 / 1000 : Nat) : Int) ++ ',' ::
      zpad 3 ((n % 1000 : Nat) : Int) := by
    intro hm
    rcases List.mem_append.mp hm with hm | hm
    · exact not_mem_of_all_digit hC (by decide) hm
    · rcases List.mem_cons.mp hm with hm | hm
      · exact absurd hm (by decide)
      · exact not_mem_of_all_digit hD (by decide) hm
  have hcomma : ',' ∉ zpad 2 ((n % 60000 / 1000 : Nat) : Int) :=
    not_mem_of_all_digit hC (by decide)
  have hsplit1 :
      splitOnChar ':' (zpad 2 ((n / 3600000 : Nat) : Int) ++ ':' ::
        (zpad 2 ((n % 3600000 / 60000 : Nat) : Int) ++ ':' ::
          (zpad 2 ((n % 60000 / 1000 : Nat) : Int) ++ ',' ::
            zpad 3 ((n % 1000 : Nat) : Int)))) =
      zpad 2 ((n / 3600000 : Nat) : Int) ::
        zpad 2 ((n % 3600000 / 60000 : Nat) : Int) ::
          [zpad 2 ((n % 60000 / 1000 : Nat) : Int) ++ ',' ::
            zpad 3 ((n % 1000 : Nat) : Int)] := by
    rw [splitOnChar_append _ hcA, splitOnChar_append _ hcB, splitOnChar_of_not_mem hcCD]
  have hsplit2 :
      splitOnChar ',' (zpad 2 ((n % 60000 / 1000 : Nat) : Int) ++ ',' ::
        zpad 3 ((n % 1000 : Nat) : Int)) =
      [zpad 2 ((n % 60000 / 1000 : Nat) : Int), zpad 3 ((n % 1000 : Nat) : Int)] := by
    rw [splitOnChar_append _ hcomma,
      splitOnChar_of_not_mem (not_mem_of_all_digit hD (by decide))]
  simp only [parse_timecode, hsplit1, hsplit2, pyInt_zpad]
  congr 1
  push_cast
  omega

theorem parse_format {x : Int} (hx : 0 ≤ x) :
    parse_timecode (format_timecode x) = some x := by
  obtain ⟨n, rfl⟩ := Int.eq_ofNat_of_zero_le hx
  exact parse_format_cast n

theorem mem_format_cast (n : Nat) :
    ∀ c ∈ format_timecode ((n : Nat) : Int), c.isDigit = true ∨ c = ':' ∨ c = ',' := by
  rw [format_timecode_cast]
  intro c hc
  rcases List.mem_append.mp hc with hc | hc
  · exact Or.inl (zpad_cast_all_digit _ _ c hc)
  · rcases List.mem_cons.mp hc with hc | hc
    · exact Or.inr (Or.inl hc)
    · rcases List.mem_append.mp hc with hc | hc
      · exact Or.inl (zpad_cast_all_digit _ _ c hc)
      · rcases List.mem_cons.mp hc with hc | hc
        · exact Or.inr (Or.inl hc)
        · rcases List.mem_append.mp hc with hc | hc
          · exact Or.inl (zpad_cast_all_digit _ _ c hc)
          · rcases List.mem_cons.mp hc with hc | hc
            · exact Or.inr (Or.inr hc)
            · exact Or.inl (zpad_cast_all_digit _ _ c hc)

theorem format_cast_not_mem (n : Nat) {x : Char}
    (h1 : x.isDigit = false) (h2 : x ≠ ':') (h3 : x ≠ ',') :
    x ∉ format_timecode ((n : Nat) : Int) := by
  intro hm
  rcases mem_format_cast n x hm with hd | hd | hd
  · rw [hd] at h1; exact absurd h1 (by simp)
  · exact h2 hd
  · exact h3 hd

theorem format_cast_no_ws (n : Nat) : ∀ c ∈ format_timecode ((n : Nat) : Int), isWsPy c = false := by
  intro c hc
  rcases mem_format_cast n c hc with hd | hd | hd
  · exact isDigit_not_ws c hd
  · subst hd; decide
  · subst hd; decide

theorem format_cast_ne_nil (n : Nat) : format_timecode ((n : Nat) : Int) ≠ [] := by
  rw [format_timecode_cast]
  intro h
  rcases List.append_eq_nil.mp h with ⟨h1, _⟩
  exact zpad_cast_ne_nil _ _ h1

/-!
Supporting lemmas: `splitArrow` and `shiftLine`.
-/

theorem splitArrowAux_cons_ne (c : Char) (m : Str) (hc : c ≠ '-') :
    splitArrowAux (c :: m) = (c :: (splitArrowAux m).1, (splitArrowAux m).2) := by
  match m with
  | [] => simp [splitArrowAux]
  | [d] => simp [splitArrowAux]
  | d :: e :: r => simp [splitArrowAux, hc]

theorem splitArrowAux_of_no_dash {l : Str} (h : '-' ∉ l) : splitArrowAux l = (l, []) := by
  induction l with
  | nil => rfl
  | cons c r ih =>
    rw [splitArrowAux_cons_ne c r (by intro he; exact h (by simp [he])),
      ih (by intro hm; exact h (by simp [hm]))]

theorem splitArrow_of_no_dash {l : Str} (h : '-' ∉ l) : splitArrow l = [l] := by
  simp [splitArrow, splitArrowAux_of_no_dash h]

theorem splitArrowAux_arrow {u : Str} (w : Str) (h : '-' ∉ u) :
    splitArrowAux (u ++ '-' :: '-' :: '>' :: w) =
      (u, (splitArrowAux w).1 :: (splitArrowAux w).2) := by
  induction u with
  | nil => simp [splitArrowAux]
  | cons c r ih =>
    rw [List.cons_append,
      splitArrowAux_cons_ne c (r ++ '-' :: '-' :: '>' :: w) (by intro he; exact h (by simp [he])),
      ih (by intro hm; exact h (by simp [hm]))]

theorem splitArrow_canonical {a b : Str} (ha : '-' ∉ a) (hb : '-' ∉ b) :
    splitArrow (a ++ ' ' :: '-' :: '-' :: '>' :: ' ' :: b) = [a ++ [' '], ' ' :: b] := by
  have h1 : a ++ ' ' :: '-' :: '-' :: '>' :: ' ' :: b
      = (a ++ [' ']) ++ '-' :: '-' :: '>' :: (' ' :: b) := by simp
  have h2 : '-' ∉ a ++ [' '] := by
    intro hm
    rcases List.mem_append.mp hm with hm | hm
    · exact ha hm
    · exact absurd hm (by decide)
  have h3 : '-' ∉ ' ' :: b := by
    intro hm
    rcases List.mem_cons.mp hm with hm | hm
    · exact absurd hm (by decide)
    · exact hb hm
  rw [h1]
  unfold splitArrow
  rw [splitArrowAux_arrow _ h2, splitArrowAux_of_no_dash h3]

theorem shiftLine_arrow_eq {line p0 p1 : Str} {rest : List Str} (off x y : Int)
    (hsplit : splitArrow line = p0 :: p1 :: rest)
    (hx : parse_timecode (strip p0) = some x) (hy : parse_timecode (strip p1) = some y) :
    shiftLine line off = some (format_timecode (x + 1000 * off) ++
      ' ' :: '-' :: '-' :: '>' :: ' ' :: format_timecode (y + 1000 * off)) := by
  simp [shiftLine, hsplit, shift_timestamp, hx, hy]

theorem format_cast_no_dash (n : Nat) : '-' ∉ format_timecode ((n : Nat) : Int) :=
  format_cast_not_mem n (by decide) (by decide) (by decide)

theorem format_cast_no_nl (n : Nat) : '\n' ∉ format_timecode ((n : Nat) : Int) :=
  format_cast_not_mem n (by decide) (by decide) (by decide)

theorem shiftLine_canonical {x y : Int} (off : Int) (hx : 0 ≤ x) (hy : 0 ≤ y) :
    shiftLine (format_timecode x ++ ' ' :: '-' :: '-' :: '>' :: ' ' :: format_timecode y) off
      = some (format_timecode (x + 1000 * off) ++
          ' ' :: '-' :: '-' :: '>' :: ' ' :: format_timecode (y + 1000 * off)) := by
  obtain ⟨n, rfl⟩ := Int.eq_ofNat_of_zero_le hx
  obtain ⟨m, rfl⟩ := Int.eq_ofNat_of_zero_le hy
  have hsp := splitArrow_canonical (format_cast_no_dash n) (format_cast_no_dash m)
  have hs0 : strip (format_timecode ((n : Nat) : Int) ++ [' '])
      = format_timecode ((n : Nat) : Int) := strip_append_space (format_cast_no_ws n)
  have hs1 : strip (' ' :: format_timecode ((m : Nat) : Int))
      = format_timecode ((m : Nat) : Int) := strip_cons_space (format_cast_no_ws m)
  refine shiftLine_arrow_eq off _ _ hsp ?_ ?_
  · rw [hs0]
    exact parse_format_cast n
  · rw [hs1]
    exact parse_format_cast m

theorem shiftLine_ok {l : Str} (a b : Int) (ha : 0 ≤ a) (hok : lineOK l = true) :
    ∃ l', shiftLine l a = some l' ∧ shiftLine l' b = shiftLine l (a + b) ∧
      shiftLine l' 0 = some l' ∧ ('\n' ∉ l → '\n' ∉ l') ∧ (l ≠ [] → l' ≠ []) := by
  rcases hsplit : splitArrow l with _ | ⟨p0, _ | ⟨p1, rest⟩⟩
  · exact absurd hsplit (by simp [splitArrow])
  · refine ⟨l, by simp [shiftLine, hsplit], by simp [shiftLine, hsplit], by
      simp [shiftLine, hsplit], fun h => h, fun h => h⟩
  · rcases hpx : parse_timecode (strip p0) with _ | x
    · simp [lineOK, hsplit, hpx] at hok
    rcases hpy : parse_timecode (strip p1) with _ | y
    · simp [lineOK, hsplit, hpx, hpy] at hok
    have hok2 : decide ((0 : Int) ≤ x) && decide ((0 : Int) ≤ y) = true := by
      simpa [lineOK, hsplit, hpx, hpy] using hok
    simp only [Bool.and_eq_true, decide_eq_true_eq] at hok2
    obtain ⟨hx0, hy0⟩ := hok2
    have h1000a : (0 : Int) ≤ 1000 * a := by omega
    have hxa : (0 : Int) ≤ x + 1000 * a := by omega
    have hya : (0 : Int) ≤ y + 1000 * a := by omega
    refine ⟨format_timecode (x + 1000 * a) ++
      ' ' :: '-' :: '-' :: '>' :: ' ' :: format_timecode (y + 1000 * a),
      shiftLine_arrow_eq a x y hsplit hpx hpy, ?_, ?_, ?_, ?_⟩
    · rw [shiftLine_canonical b hxa hya, shiftLine_arrow_eq (a + b) x y hsplit hpx hpy]
      have e1 : x + 1000 * a + 1000 * b = x + 1000 * (a + b) := by ring
      have e2 : y + 1000 * a + 1000 * b = y + 1000 * (a + b) := by ring
      rw [e1, e2]
    · rw [shiftLine_canonical 0 hxa hya]
      have e1 : x + 1000 * a + 1000 * 0 = x + 1000 * a := by ring
      have e2 : y + 1000 * a + 1000 * 0 = y + 1000 * a := by ring
      rw [e1, e2]
    · intro _ hm
      obtain ⟨na, hna⟩ := Int.eq_ofNat_of_zero_le hxa
      obtain ⟨ma, hma⟩ := Int.eq_ofNat_of_zero_le hya
      rw [hna, hma] at hm
      rcases List.mem_append.mp hm with hm | hm
      · exact format_cast_no_nl na hm
      · rcases List.mem_cons.mp hm with hm | hm
        · exact absurd hm (by decide)
        · rcases List.mem_cons.mp hm with hm | hm
          · exact absurd hm (by decide)
          · rcases List.mem_cons.mp hm with hm | hm
            · exact absurd hm (by decide)
            · rcases List.mem_cons.mp hm with hm | hm
              · exact absurd hm (by decide)
              · rcases List.mem_cons.mp hm with hm | hm
                · exact absurd hm (by decide)
                · exact format_cast_no_nl ma hm
    · intro _
      simp

/-!
Supporting lemmas: lists of lines, `intercalate`/`splitlines` and `shiftLines`.
-/

theorem mem_of_getLast? {α : Type} {l : List α} {c : α} (h : l.getLast? = some c) : c ∈ l := by
  induction l with
  | nil => simp at h
  | cons a t ih =>
    cases t with
    | nil =>
      simp at h
      simp [h]
    | cons b t2 =>
      rw [List.getLast?_cons_cons] at h
      exact List.mem_cons_of_mem a (ih h)

theorem forall2_mem_right {α : Type} {R : α → α → Prop} {l l' : List α}
    (h : List.Forall₂ R l l') : ∀ y ∈ l', ∃ x ∈ l, R x y := by
  induction h with
  | nil => simp
  | cons ha _ ih =>
    intro y hy
    rcases List.mem_cons.mp hy with hy | hy
    · subst hy
      exact ⟨_, by simp, ha⟩
    · obtain ⟨x, hx, hr⟩ := ih y hy
      exact ⟨x, List.mem_cons_of_mem _ hx, hr⟩

theorem forall2_getLast {α : Type} {R : α → α → Prop} {l l' : List α}
    (h : List.Forall₂ R l l') : ∀ y, l'.getLast? = some y → ∃ x, l.getLast? = some x ∧ R x y := by
  induction h with
  | nil => intro y hy; simp at hy
  | @cons a b l1 l2 ha htl ih =>
    intro y hy
    cases l2 with
    | nil =>
      have h1 : l1 = [] := by
        have := htl.length_eq
        simpa [List.length_eq_zero] using this
      subst h1
      simp at hy
      subst hy
      exact ⟨a, by simp, ha⟩
    | cons c t =>
      rw [List.getLast?_cons_cons] at hy
      obtain ⟨x, hx, hr⟩ := ih y hy
      have h1 : l1 ≠ [] := by
        intro he
        subst he
        have := htl.length_eq
        simp at this
      refine ⟨x, ?_, hr⟩
      cases l1 with
      | nil => exact absurd rfl h1
      | cons d t2 =>
        rw [List.getLast?_cons_cons]
        exact hx

theorem splitlines_no_nl (t : Str) : ∀ p ∈ splitlines t, '\n' ∉ p := by
  intro p hp
  unfold splitlines at hp
  by_cases h0 : t = []
  · simp [h0] at hp
  · rw [if_neg h0] at hp
    by_cases h1 : t.getLast? = some '\n'
    · rw [if_pos h1] at hp
      exact splitOnChar_pieces_not_mem '\n' t p (List.mem_of_mem_dropLast hp)
    · rw [if_neg h1] at hp
      exact splitOnChar_pieces_not_mem '\n' t p hp

theorem intercalate_nil_str : List.intercalate ['\n'] ([] : List Str) = [] := by
  simp [List.intercalate]

theorem intercalate_single (x : Str) : List.intercalate ['\n'] [x] = x := by
  simp [List.intercalate]

theorem intercalate_cons_cons (x y : Str) (tl : List Str) :
    List.intercalate ['\n'] (x :: y :: tl) = x ++ '\n' :: List.intercalate ['\n'] (y :: tl) := by
  simp [List.intercalate, List.intersperse]

theorem intercalate_ne_nil {ls : List Str} (hne : ls ≠ [])
    (hlast : ls.getLast? ≠ some []) : List.intercalate ['\n'] ls ≠ [] := by
  cases ls with
  | nil => exact absurd rfl hne
  | cons x tl =>
    cases tl with
    | nil =>
      rw [intercalate_single]
      intro he
      subst he
      exact hlast (by simp)
    | cons y tl2 =>
      rw [intercalate_cons_cons]
      intro he
      rcases List.append_eq_nil.mp he with ⟨_, h2⟩
      exact absurd h2 (by simp)

theorem intercalate_getLast_not_nl {ls : List Str} (hne : ls ≠ [])
    (hnl : ∀ l ∈ ls, '\n' ∉ l) (hlast : ls.getLast? ≠ some []) :
    ∀ c, (List.intercalate ['\n'] ls).getLast? = some c → c ≠ '\n' := by
  induction ls with
  | nil => exact absurd rfl hne
  | cons x tl ih =>
    cases tl with
    | nil =>
      intro c hc
      rw [intercalate_single] at hc
      exact fun he => hnl x (by simp) (he ▸ mem_of_getLast? hc)
    | cons y tl2 =>
      intro c hc
      rw [intercalate_cons_cons] at hc
      have htne : List.intercalate ['\n'] (y :: tl2) ≠ [] := by
        refine intercalate_ne_nil (by simp) ?_
        intro h
        exact hlast (by rw [List.getLast?_cons_cons]; exact h)
      rw [List.getLast?_append] at hc
      have h2 : ('\n' :: List.intercalate ['\n'] (y :: tl2)).getLast? =
          (List.intercalate ['\n'] (y :: tl2)).getLast? := by
        cases he : List.intercalate ['\n'] (y :: tl2) with
        | nil => exact absurd he htne
        | cons a t => rw [List.getLast?_cons_cons]
      rw [h2] at hc
      have h3 : (List.intercalate ['\n'] (y :: tl2)).getLast?.isSome = true :=
        List.getLast?_isSome.mpr htne
      obtain ⟨c', hc'⟩ := Option.isSome_iff_exists.mp h3
      rw [hc'] at hc
      simp only [Option.or_some] at hc
      have hcc : c = c' := by
        have := (by simpa using hc : c' = c)
        exact this.symm
      subst hcc
      exact ih (by simp) (fun l hl => hnl l (List.mem_cons_of_mem x hl))
        (fun h => hlast (by rw [List.getLast?_cons_cons]; exact h)) c hc'

theorem splitOnChar_intercalate {ls : List Str} (hne : ls ≠ [])
    (hnl : ∀ l ∈ ls, '\n' ∉ l) :
    splitOnChar '\n' (List.intercalate ['\n'] ls) = ls := by
  induction ls with
  | nil => exact absurd rfl hne
  | cons x tl ih =>
    cases tl with
    | nil =>
      rw [intercalate_single]
      exact splitOnChar_of_not_mem (hnl x (by simp))
    | cons y tl2 =>
      rw [intercalate_cons_cons, splitOnChar_append _ (hnl x (by simp)),
        ih (by simp) (fun l hl => hnl l (List.mem_cons_of_mem x hl))]

theorem splitlines_intercalate {ls : List Str} (hne : ls ≠ [])
    (hnl : ∀ l ∈ ls, '\n' ∉ l) (hlast : ls.getLast? ≠ some []) :
    splitlines (List.intercalate ['\n'] ls) = ls := by
  have htne := intercalate_ne_nil hne hlast
  unfold splitlines
  rw [if_neg htne]
  have hns : ¬ ((List.intercalate ['\n'] ls).getLast? = some '\n') := by
    intro h
    exact intercalate_getLast_not_nl hne hnl hlast '\n' h rfl
  rw [if_neg hns]
  exact splitOnChar_intercalate hne hnl

theorem shiftLines_ok {ls : List Str} (a b : Int) (ha : 0 ≤ a)
    (hok : ∀ l ∈ ls, lineOK l = true) :
    ∃ ls', shiftLines ls a = some ls' ∧ shiftLines ls' b = shiftLines ls (a + b) ∧
      shiftLines ls' 0 = some ls' ∧
      List.Forall₂ (fun l l' => ('\n' ∉ l → '\n' ∉ l') ∧ (l ≠ [] → l' ≠ [])) ls ls' := by
  induction ls with
  | nil => exact ⟨[], rfl, rfl, rfl, List.Forall₂.nil⟩
  | cons l tl ih =>
    obtain ⟨l', hl1, hl2, hl3, hlnl, hlne⟩ := shiftLine_ok a b ha (hok l (by simp))
    obtain ⟨tl', ht1, ht2, ht3, hrel⟩ := ih (fun x hx => hok x (List.mem_cons_of_mem l hx))
    refine ⟨l' :: tl', ?_, ?_, ?_, List.Forall₂.cons ⟨hlnl, hlne⟩ hrel⟩
    · simp only [shiftLines, hl1, ht1]
    · simp only [shiftLines, hl2, ht2]
    · simp only [shiftLines, hl3, ht3]

theorem adjust_srt_main (t : Str) (a b : Int) (ha : 0 ≤ a)
    (hlast : (splitlines t).getLast? ≠ some [])
    (hok : ∀ l ∈ splitlines t, lineOK l = true) :
    ∃ u, adjust_srt t a = some u ∧ adjust_srt u b = adjust_srt t (a + b) ∧
      adjust_srt u 0 = some u := by
  obtain ⟨ls', h1, h2, h3, hrel⟩ := shiftLines_ok a b ha hok
  refine ⟨List.intercalate ['\n'] ls', by simp [adjust_srt, h1], ?_, ?_⟩
  · by_cases hnil : ls' = []
    · subst hnil
      have hls : splitlines t = [] := by
        have := hrel.length_eq
        simpa [List.length_eq_zero] using this
      rw [intercalate_nil_str]
      show (shiftLines (splitlines ([] : Str)) b).map (List.intercalate ['\n'])
          = (shiftLines (splitlines t) (a + b)).map (List.intercalate ['\n'])
      rw [hls]
      rfl
    · have hnl' : ∀ l' ∈ ls', '\n' ∉ l' := by
        intro l' hl'
        obtain ⟨x, hx, hr, _⟩ := forall2_mem_right hrel l' hl'
        exact hr (splitlines_no_nl t x hx)
      have hlast' : ls'.getLast? ≠ some [] := by
        intro heq
        obtain ⟨x, hx, _, hne⟩ := forall2_getLast hrel [] heq
        by_cases hxe : x = []
        · subst hxe
          exact hlast hx
        · exact hne hxe rfl
      show (shiftLines (splitlines (List.intercalate ['\n'] ls')) b).map (List.intercalate ['\n'])
          = (shiftLines (splitlines t) (a + b)).map (List.intercalate ['\n'])
      rw [splitlines_intercalate hnil hnl' hlast', h2]
  · by_cases hnil : ls' = []
    · subst hnil
      rw [intercalate_nil_str]
      rfl
    · have hnl' : ∀ l' ∈ ls', '\n' ∉ l' := by
        intro l' hl'
        obtain ⟨x, hx, hr, _⟩ := forall2_mem_right hrel l' hl'
        exact hr (splitlines_no_nl t x hx)
      have hlast' : ls'.getLast? ≠ some [] := by
        intro heq
        obtain ⟨x, hx, _, hne⟩ := forall2_getLast hrel [] heq
        by_cases hxe : x = []
        · subst hxe
          exact hlast hx
        · exact hne hxe rfl
      show (shiftLines (splitlines (List.intercalate ['\n'] ls')) 0).map (List.intercalate ['\n'])
          = some (List.intercalate ['\n'] ls')
      rw [splitlines_intercalate hnil hnl' hlast', h3]
      rfl

/-!
Supporting lemmas: the chunk processor, the coordinator's sort, and the merge.
-/

theorem process_chunk_fst (env : Collab) (ci : Nat × String) :
    (process_chunk env ci).1 = ci.1 := by
  unfold process_chunk process_chunk_ev
  cases h1 : env.transcribe ci.2 with
  | error e => simp [h1]
  | ok t =>
    cases h2 : env.gptProcess t with
    | error e => simp [h1, h2]
    | ok p =>
      cases h3 : adjust_srt p ((ci.1 : Int) * (CHUNK_LENGTH : Int)) with
      | none => simp [h1, h2, h3]
      | some adjusted =>
        cases h4 : env.removeFile ci.2 with
        | error e => simp [h1, h2, h3, h4]
        | ok u => simp [h1, h2, h3, h4]

theorem sortByIndex_eq {l target : List (Nat × Str)} (hperm : l.Perm target)
    (hsorted : List.Pairwise (fun a b => a.1 < b.1) target) : sortByIndex l = target := by
  have hns : List.Pairwise (fun a b : Nat × Str => a.1 ≠ b.1) target :=
    hsorted.imp (fun h => Nat.ne_of_lt h)
  haveI : IsTotal (Nat × Str) (fun a b => a.1 ≤ b.1) := ⟨fun a b => Nat.le_total a.1 b.1⟩
  haveI : IsTrans (Nat × Str) (fun a b => a.1 ≤ b.1) := ⟨fun a b c h1 h2 => le_trans h1 h2⟩
  haveI : IsAntisymm (Nat × Str) (fun a b => a.1 < b.1) :=
    ⟨fun a b h1 h2 => absurd (lt_trans h1 h2) (lt_irrefl _)⟩
  have hp : (sortByIndex l).Perm target :=
    (List.perm_insertionSort (fun a b : Nat × Str => a.1 ≤ b.1) l).trans hperm
  have hs1 : List.Sorted (fun a b : Nat × Str => a.1 ≤ b.1) (sortByIndex l) :=
    List.sorted_insertionSort (fun a b : Nat × Str => a.1 ≤ b.1) l
  have hne : List.Pairwise (fun a b : Nat × Str => a.1 ≠ b.1) (sortByIndex l) :=
    (List.Perm.pairwise_iff (fun h => Ne.symm h) hp).mpr hns
  have hs2 : List.Sorted (fun a b : Nat × Str => a.1 < b.1) (sortByIndex l) :=
    (List.Pairwise.and hs1 hne).imp (fun h => lt_of_le_of_ne h.1 h.2)
  exact List.eq_of_perm_of_sorted hp hs2 hsorted

theorem process_audio_out_eq (env : Collab) (chunks order : List (Nat × String))
    (hidx : chunks.map Prod.fst = List.range chunks.length) (hperm : order.Perm chunks) :
    process_audio_out env order = chunks.map (fun c => (process_chunk env c).2) := by
  unfold process_audio_out
  have hchunks : List.Pairwise (fun a b : Nat × String => a.1 < b.1) chunks := by
    have h2 : List.Pairwise (fun a b : Nat => a < b) (chunks.map Prod.fst) := by
      rw [hidx]
      exact List.pairwise_lt_range _
    rw [List.pairwise_map] at h2
    exact h2
  have htgt : List.Pairwise (fun a b : Nat × Str => a.1 < b.1)
      (chunks.map (process_chunk env)) := by
    rw [List.pairwise_map]
    exact hchunks.imp (fun {a b} h => by
      rw [process_chunk_fst, process_chunk_fst]
      exact h)
  rw [sortByIndex_eq (hperm.map (process_chunk env)) htgt, List.map_map]
  rfl

theorem split_audio_zero {fs : List Nat} (h : 0 ∉ fs) (base : String) :
    split_audio fs base = [] := by
  unfold split_audio
  have hc : fs.contains 0 = false := by simp [h]
  rw [List.range_succ_eq_map, List.takeWhile_cons, hc]
  simp

theorem srt_content_foldl (texts : List Str) (acc : Str) :
    texts.foldl (fun acc text => acc ++ (text ++ ['\n', '\n'])) acc
      = acc ++ (texts.map (fun t => t ++ ['\n', '\n'])).flatten := by
  induction texts generalizing acc with
  | nil => simp
  | cons x tl ih =>
    simp only [List.foldl_cons, List.map_cons, List.flatten_cons, ih]
    simp

theorem srt_content_eq_flat (texts : List Str) :
    srt_content texts = (texts.map (fun t => t ++ ['\n', '\n'])).flatten := by
  simpa [srt_content] using srt_content_foldl texts []

theorem merge_spec_cons_cons (x y : Str) (tl : List Str) :
    merge_spec (x :: y :: tl) = x ++ '\n' :: '\n' :: merge_spec (y :: tl) := by
  simp [merge_spec, List.intercalate, List.intersperse]

theorem merge_spec_single (x : Str) : merge_spec [x] = x := by
  simp [merge_spec, List.intercalate]

/-!
Claim theorems.
-/

/-- C1: for every chunk descriptor with index `i`, the offset the Chunk
Processor applies to that chunk's subtitle block (the offset argument of its
`adjust_srt` call) is exactly `i * 200`, the index times the fixed chunk
length `CHUNK_LENGTH = 200` of the source. -/
theorem C1_chunk_offset (env : Collab) (i : Nat) (f : String) (off : Int)
    (h : Event.adjustEv off ∈ (process_chunk_ev env (i, f)).2) : off = (i : Int) * 200 := by
  unfold process_chunk_ev at h
  cases h1 : env.transcribe f with
  | error e => simp [h1] at h
  | ok t =>
    cases h2 : env.gptProcess t with
    | error e => simp [h1, h2] at h
    | ok p =>
      cases h3 : adjust_srt p ((i : Int) * (CHUNK_LENGTH : Int)) with
      | none =>
        simp [h1, h2, h3] at h
        rw [h]
        norm_num [CHUNK_LENGTH]
      | some adjusted =>
        cases h4 : env.removeFile f with
        | error e =>
          simp [h1, h2, h3, h4] at h
          rw [h]
          norm_num [CHUNK_LENGTH]
        | ok u =>
          simp [h1, h2, h3, h4] at h
          rw [h]
          norm_num [CHUNK_LENGTH]

/-- Witness for C1 at chunk index 3: the offset event recorded by a concrete
successful run carries exactly 3 * 200 = 600. -/
theorem C1_chunk_offset_witness : (600 : Int) = ((3 : Nat) : Int) * 200 :=
  C1_chunk_offset ⟨fun _ => Except.ok ['x'], fun t => Except.ok t, fun _ => Except.ok ()⟩
    3 "f" 600 (by decide)

/-- C2 counterexample: `shiftBlock` (here `adjust_srt`) with offset 0 is not
the identity on every subtitle text: a text with a trailing newline loses it,
because `splitlines` drops the final empty line and the lines are re-joined
with a bare `"\n".join`. -/
theorem C2_identity_counterexample :
    adjust_srt ('a' :: '\n' :: []) 0 ≠ some ('a' :: '\n' :: []) := by decide

/-- C2 amended: on blocks whose `-->` lines parse to nonnegative timecodes and
whose last line is nonempty, shifting by `a ≥ 0` succeeds, composing with a
further shift by any `b` equals the single shift by `a + b`, and shifting the
(canonical) output by 0 is the identity.  On non-canonical input (trailing
newline, unpadded fields, nonstandard spacing) offset 0 normalises the text
instead of preserving it, and on negative totals the truncation in
`shift_timestamp` breaks additivity, so the claim holds only in this form. -/
theorem C2_shift_additive_amended (t : Str) (a b : Int) (ha : 0 ≤ a)
    (hlast : (splitlines t).getLast? ≠ some [])
    (hok : ∀ l ∈ splitlines t, lineOK l = true) :
    ∃ u, adjust_srt t a = some u ∧ adjust_srt u b = adjust_srt t (a + b) ∧
      adjust_srt u 0 = some u :=
  adjust_srt_main t a b ha hlast hok

/-- Witness for the amended C2 on a concrete three-line SRT block with offsets
a = 1 and b = 2. -/
theorem C2_shift_additive_amended_witness :
    ∃ u, adjust_srt ("1\n00:00:05,000 --> 00:00:10,000\nhello".toList) 1 = some u ∧
      adjust_srt u 2 = adjust_srt ("1\n00:00:05,000 --> 00:00:10,000\nhello".toList) (1 + 2) ∧
      adjust_srt u 0 = some u :=
  C2_shift_additive_amended _ 1 2 (by decide) (by decide) (by decide)

/-- C3 counterexample: an entry with start `00:00:00,000` and end
`00:00:00,001` (start before end, as parsed totals) shifted by offset -6
seconds comes out as `-1:59:54,000` and `-1:59:54,-999`, whose parsed totals
are -6000 ms and -6999 ms: the shifted start is strictly after the shifted
end, so the shift is not order-preserving for every offset. -/
theorem C3_monotone_counterexample :
    parse_timecode ("00:00:00,000".toList) = some 0 ∧
    parse_timecode ("00:00:00,001".toList) = some 1 ∧
    ((0 : Int) ≤ 1) ∧
    shift_timestamp ("00:00:00,000".toList) (-6) = some ("-1:59:54,000".toList) ∧
    shift_timestamp ("00:00:00,001".toList) (-6) = some ("-1:59:54,-999".toList) ∧
    parse_timecode ("-1:59:54,000".toList) = some (-6000) ∧
    parse_timecode ("-1:59:54,-999".toList) = some (-6999) ∧
    ¬ ((-6000 : Int) ≤ (-6999 : Int)) := by decide

/-- C3 amended: for timecodes with nonnegative parsed totals `x ≤ y` and a
nonnegative offset (the planner only produces offsets `i * 200 ≥ 0`), shifting
both timecodes preserves the ordering: the shifted strings parse to exactly
`x + 1000 δ ≤ y + 1000 δ` milliseconds. -/
theorem C3_shift_monotone_amended (s e : Str) (x y δ : Int)
    (hx : parse_timecode s = some x) (hy : parse_timecode e = some y)
    (hx0 : 0 ≤ x) (hxy : x ≤ y) (hd : 0 ≤ δ) :
    ∃ u v, shift_timestamp s δ = some u ∧ shift_timestamp e δ = some v ∧
      parse_timecode u = some (x + 1000 * δ) ∧ parse_timecode v = some (y + 1000 * δ) ∧
      x + 1000 * δ ≤ y + 1000 * δ := by
  have h1000 : (0 : Int) ≤ 1000 * δ := by omega
  have hy0 : (0 : Int) ≤ y := le_trans hx0 hxy
  refine ⟨format_timecode (x + 1000 * δ), format_timecode (y + 1000 * δ), ?_, ?_, ?_, ?_, by omega⟩
  · simp [shift_timestamp, hx]
  · simp [shift_timestamp, hy]
  · exact parse_format (by omega)
  · exact parse_format (by omega)

/-- Witness for the amended C3 with start 1 second, end 2 seconds, offset 5. -/
theorem C3_shift_monotone_amended_witness :
    ∃ u v, shift_timestamp ("00:00:01,000".toList) 5 = some u ∧
      shift_timestamp ("00:00:02,000".toList) 5 = some v ∧
      parse_timecode u = some (1000 + 1000 * 5) ∧ parse_timecode v = some (2000 + 1000 * 5) ∧
      (1000 : Int) + 1000 * 5 ≤ 2000 + 1000 * 5 :=
  C3_shift_monotone_amended _ _ 1000 2000 5 (by decide) (by decide) (by decide)
    (by decide) (by decide)

/-- C4: if any error occurs during transcription, revision, or timestamp
shifting of a chunk, `process_chunk` returns the `Failed` result carrying that
chunk's index and the empty payload; being a total function of the oracle
outcomes, no exception escapes the per-chunk boundary. -/
theorem C4_failure_isolated (env : Collab) (i : Nat) (f : String)
    (h : (∃ e, env.transcribe f = Except.error e) ∨
      (∃ t e, env.transcribe f = Except.ok t ∧ env.gptProcess t = Except.error e) ∨
      (∃ t p, env.transcribe f = Except.ok t ∧ env.gptProcess t = Except.ok p ∧
        adjust_srt p ((i : Int) * (CHUNK_LENGTH : Int)) = none)) :
    process_chunk env (i, f) = (i, []) := by
  unfold process_chunk process_chunk_ev
  rcases h with ⟨e, he⟩ | ⟨t, e, ht, he⟩ | ⟨t, p, ht, hp, ha⟩
  · simp [he]
  · simp [ht, he]
  · simp [ht, hp, ha]

/-- Witness for C4: a failing transcription collaborator yields the empty
`Failed` result at the chunk's own index 5. -/
theorem C4_failure_isolated_witness :
    process_chunk ⟨fun _ => Except.error "boom", fun t => Except.ok t, fun _ => Except.ok ()⟩
      (5, "c") = (5, []) :=
  C4_failure_isolated _ 5 "c" (Or.inl ⟨"boom", rfl⟩)

/-- C5: for chunk descriptors indexed 0..n-1 and any completion order of
the dispatched tasks, the coordinator returns exactly n payloads, one per
descriptor, in ascending chunk-index order: entry i is the payload
`process_chunk` computed for descriptor i (the empty string when that chunk
failed, its subtitle block otherwise). -/
theorem C5_coordinator_ordered (env : Collab) (chunks order : List (Nat × String))
    (hidx : chunks.map Prod.fst = List.range chunks.length)
    (hperm : order.Perm chunks) :
    process_audio_out env order = chunks.map (fun c => (process_chunk env c).2) ∧
      (process_audio_out env order).length = chunks.length := by
  have h := process_audio_out_eq env chunks order hidx hperm
  exact ⟨h, by rw [h]; simp⟩

/-- Witness for C5: two chunks completing in reverse order, with chunk 1
injected to fail, still yield both entries in index order. -/
theorem C5_coordinator_ordered_witness :
    process_audio_out
        ⟨fun f => if f = "c1" then Except.error "boom" else Except.ok ['a'],
          fun t => Except.ok t, fun _ => Except.ok ()⟩
        [(1, "c1"), (0, "c0")]
      = [(0, "c0"), (1, "c1")].map
          (fun c => (process_chunk
            ⟨fun f => if f = "c1" then Except.error "boom" else Except.ok ['a'],
              fun t => Except.ok t, fun _ => Except.ok ()⟩ c).2) ∧
    (process_audio_out
        ⟨fun f => if f = "c1" then Except.error "boom" else Except.ok ['a'],
          fun t => Except.ok t, fun _ => Except.ok ()⟩
        [(1, "c1"), (0, "c0")]).length = ([(0, "c0"), (1, "c1")] : List (Nat × String)).length :=
  C5_coordinator_ordered _ [(0, "c0"), (1, "c1")] [(1, "c1"), (0, "c0")]
    (by decide) (by decide)

/-- C6: when the probe finds chunk index 0 missing (segmentation produced zero
chunk files), the pipeline fails at worker-pool creation (the job-fatal error
the specification's taxonomy names `SegmentationIncomplete`, realised in the
source as the `ValueError` of `ThreadPoolExecutor(max_workers=0)`) and no
transcription or revision collaborator call is ever attempted: the event trace
is empty. -/
theorem C6_zero_chunks_aborts (env : Collab) (fs : List Nat) (base : String)
    (order : List (Nat × String)) (h : 0 ∉ fs) :
    process_audio_ev env fs base order = (Except.error PipeErr.poolSizeZero, []) := by
  simp [process_audio_ev, split_audio_zero h base, max_workers]

/-- Witness for C6: a filesystem holding chunk files 1 and 2 but not 0. -/
theorem C6_zero_chunks_aborts_witness :
    process_audio_ev ⟨fun _ => Except.ok ['a'], fun t => Except.ok t, fun _ => Except.ok ()⟩
      [1, 2] "base" [] = (Except.error PipeErr.poolSizeZero, []) :=
  C6_zero_chunks_aborts _ [1, 2] "base" [] (by decide)

/-- C7 counterexample: deletion of the chunk file is not always attempted and
its failure is not harmless.  With a failing transcription the trace contains
no remove call at all (cleanup is skipped on any earlier failure, since
`os.remove` sits at the end of the `try` block); and with all three steps
succeeding, a failing `os.remove` is caught by the same handler and flips the
chunk result from its successful payload to the empty `Failed` result. -/
theorem C7_cleanup_counterexample :
    ((process_chunk_ev ⟨fun _ => Except.error "boom", fun t => Except.ok t,
        fun _ => Except.ok ()⟩ (0, "c")).2 = [Event.transcribeEv "c"]) ∧
    (Event.removeEv "c" ∉ (process_chunk_ev ⟨fun _ => Except.error "boom", fun t => Except.ok t,
        fun _ => Except.ok ()⟩ (0, "c")).2) ∧
    (process_chunk ⟨fun _ => Except.ok ['x'], fun t => Except.ok t,
        fun _ => Except.error "locked"⟩ (0, "c") = (0, [])) ∧
    (process_chunk ⟨fun _ => Except.ok ['x'], fun t => Except.ok t,
        fun _ => Except.ok ()⟩ (0, "c") = (0, ['x'])) := by decide

/-- C7 amended: the chunk file deletion is attempted exactly when
transcription, revision and timestamp shifting all succeeded (an earlier
failure skips cleanup), and a failure of the deletion itself is caught by the
per-chunk handler and turns the chunk result into the empty `Failed` result. -/
theorem C7_cleanup_amended (env : Collab) (i : Nat) (f : String) :
    (Event.removeEv f ∈ (process_chunk_ev env (i, f)).2 ↔
      ∃ t p, env.transcribe f = Except.ok t ∧ env.gptProcess t = Except.ok p ∧
        (adjust_srt p ((i : Int) * (CHUNK_LENGTH : Int))).isSome = true) ∧
    ∀ e, env.removeFile f = Except.error e → process_chunk env (i, f) = (i, []) := by
  constructor
  · unfold process_chunk_ev
    cases h1 : env.transcribe f with
    | error e => simp [h1]
    | ok t =>
      cases h2 : env.gptProcess t with
      | error e => simp [h1, h2]
      | ok p =>
        cases h3 : adjust_srt p ((i : Int) * (CHUNK_LENGTH : Int)) with
        | none => simp [h1, h2, h3]
        | some adjusted =>
          cases h4 : env.removeFile f with
          | error e => simp [h1, h2, h3, h4]
          | ok u => simp [h1, h2, h3, h4]
  · intro e he
    unfold process_chunk process_chunk_ev
    cases h1 : env.transcribe f with
    | error e2 => simp [h1]
    | ok t =>
      cases h2 : env.gptProcess t with
      | error e2 => simp [h1, h2]
      | ok p =>
        cases h3 : adjust_srt p ((i : Int) * (CHUNK_LENGTH : Int)) with
        | none => simp [h1, h2, h3]
        | some adjusted => simp [h1, h2, h3, he]

/-- Witness for the amended C7: a failing delete on an otherwise successful
chunk yields the empty `Failed` result at index 1. -/
theorem C7_cleanup_amended_witness :
    process_chunk ⟨fun _ => Except.ok ['x'], fun t => Except.ok t,
      fun _ => Except.error "locked"⟩ (1, "f") = (1, []) :=
  (C7_cleanup_amended ⟨fun _ => Except.ok ['x'], fun t => Except.ok t,
    fun _ => Except.error "locked"⟩ 1 "f").2 "locked" rfl

/-- C8 counterexample: the merge loop appends the blank-line separator after
every payload, the last one included, so the merged artifact is not the plain
separator-interleaved concatenation the claim states: for payloads "a", "b" it
produces "a\n\nb\n\n", not "a\n\nb". -/
theorem C8_merge_counterexample :
    srt_content [['a'], ['b']] = ('a' :: '\n' :: '\n' :: 'b' :: '\n' :: '\n' :: []) ∧
    merge_spec [['a'], ['b']] = ('a' :: '\n' :: '\n' :: 'b' :: []) ∧
    srt_content [['a'], ['b']] ≠ merge_spec [['a'], ['b']] := by decide

/-- C8 amended: the merged artifact is each payload followed by one blank-line
separator, concatenated in order - equivalently, the separator-interleaved
concatenation of the claim plus one trailing separator when there is at least
one payload.  Failed chunks' empty payloads are included. -/
theorem C8_merge_amended (texts : List Str) :
    srt_content texts = (texts.map (fun t => t ++ ['\n', '\n'])).flatten ∧
    srt_content texts = merge_spec texts ++ (if texts.isEmpty then [] else ['\n', '\n']) := by
  refine ⟨srt_content_eq_flat texts, ?_⟩
  rw [srt_content_eq_flat]
  induction texts with
  | nil => simp [merge_spec, List.intercalate]
  | cons x tl ih =>
    cases tl with
    | nil => simp [merge_spec_single]
    | cons y tl2 =>
      rw [merge_spec_cons_cons]
      simp only [List.map_cons, List.flatten_cons] at ih ⊢
      rw [ih]
      simp

/-- C9: the coordinator's worker pool size is `min(8, numChunks)`: it never
exceeds the fixed cap 8 and never exceeds the number of chunk descriptors. -/
theorem C9_pool_size (chunks : List (Nat × String)) :
    max_workers chunks = min 8 chunks.length ∧ max_workers chunks ≤ 8 ∧
      max_workers chunks ≤ chunks.length :=
  ⟨rfl, Nat.min_le_left _ _, Nat.min_le_right _ _⟩

/-- C10: the per-chunk processor is total at its boundary: whatever the
collaborators do, it returns a pair of the chunk's own index and a payload
string and never raises; consequently the coordinator's per-future exception
branch never drops a result - the collected list has one entry per dispatched
chunk. -/
theorem C10_process_chunk_total (env : Collab) (ci : Nat × String) :
    (∃ s, process_chunk env ci = (ci.1, s)) ∧
      ∀ order : List (Nat × String), (order.map (process_chunk env)).length = order.length := by
  constructor
  · refine ⟨(process_chunk env ci).2, ?_⟩
    rw [← process_chunk_fst env ci]
  · intro order
    simp
